import Mathlib

/-!
Shallow embedding of `py-vptree` (`src/vptree/__init__.py`), a vantage-point
tree over an arbitrary distance function.

Modelling conventions:
* Python `Node`-or-`None` values become the single inductive type `Node α`
  with a dedicated `Node.none` constructor mirroring Python's `None`.
* Distances and thresholds are rationals (`ℚ`): Python stores ints or floats
  here, and `statistics.median` of an even-sized list averages the two middle
  values, so `ℚ` represents every value the code can produce exactly.
* `secrets.choice` (uniformly random element of a list) is modelled by an
  explicit choice oracle `ch : List α → ℕ` selecting an index modulo the
  length; quantifying over `ch` covers every possible random outcome.
* Python exceptions (`AttributeError`, `IndexError`,
  `statistics.StatisticsError`) become `Except String` results.
* `sys.setrecursionlimit` in `VPTree.__init__` only manipulates interpreter
  state and is modelled as a no-op; the `statistics.median([])` failure on the
  same path is modelled faithfully because it is unconditional.
-/

namespace VPT

/-- A Python `Node`-or-`None` value.  `Node.none` is Python's `None`;
`Node.node point threshold inside outside` is a `Node` instance with its four
attributes (`src/vptree/__init__.py`, class `Node`). -/
inductive Node (α : Type) : Type where
  | none : Node α
  | node (point : α) (threshold : ℚ) (inside : Node α) (outside : Node α) : Node α
deriving DecidableEq, Repr

variable {α : Type}

/-- `Node(point, dist_fn, [])`: threshold 0, no children
(lines 40-42 of the source). -/
def leaf (p : α) : Node α := Node.node p 0 Node.none Node.none

/-- The true number of stored points of a (sub)tree: vantage point plus all
descendants. -/
def count : Node α → ℕ
  | Node.none => 0
  | Node.node _ _ i o => 1 + count i + count o

/-- `Node.__len__` (lines 74-77): `(len(self.inside) + 1 if self.inside is not
None else 0) + (len(self.outside) + 1 if self.outside is not None else 0)`. -/
def pyLen : Node α → ℕ
  | Node.none => 0
  | Node.node _ _ i o =>
      (match i with
       | Node.none => 0
       | Node.node q t a b => pyLen (Node.node q t a b) + 1) +
      (match o with
       | Node.none => 0
       | Node.node q t a b => pyLen (Node.node q t a b) + 1)

/-- `VPTree.__len__` (lines 237-238): `len(self.vantage_point) + 1 if
self.vantage_point is not None else 0`. -/
def pyTreeLen (root : Node α) : ℕ :=
  match root with
  | Node.none => 0
  | Node.node q t a b => pyLen (Node.node q t a b) + 1

/-- Python truthiness of a `Node`-or-`None` value: `None` is falsy, and a
`Node` is truthy iff its `__len__` is nonzero (Python falls back to `__len__`
because `Node` defines no `__bool__`). -/
def truthy : Node α → Bool
  | Node.none => false
  | Node.node q t a b => pyLen (Node.node q t a b) != 0

/-- The `threshold` attribute (0 as a don't-care on `None`, which the code
never reads). -/
def thrOf : Node α → ℚ
  | Node.none => 0
  | Node.node _ t _ _ => t

/-- The `inside` attribute. -/
def insideOf : Node α → Node α
  | Node.none => Node.none
  | Node.node _ _ i _ => i

/-- The `outside` attribute. -/
def outsideOf : Node α → Node α
  | Node.none => Node.none
  | Node.node _ _ _ o => o

/-- The list of points stored in a (sub)tree, root first. -/
def points : Node α → List α
  | Node.none => []
  | Node.node p _ i o => p :: (points i ++ points o)

/-- The list of thresholds stored in a (sub)tree, root first. -/
def thresholds : Node α → List ℚ
  | Node.none => []
  | Node.node _ t i o => t :: (thresholds i ++ thresholds o)

/-- Number of 1-bits, with explicit structural fuel (the fuel `n` is always
sufficient since a number needs at most its own magnitude in halving steps);
models Python's `bin(x).count("1")`. -/
def popCountAux : ℕ → ℕ → ℕ
  | 0, _ => 0
  | _ + 1, 0 => 0
  | f + 1, n + 1 => (n + 1) % 2 + popCountAux f ((n + 1) / 2)

/-- `hamming` (lines 16-26): `bin(a ^ b).count("1")`. -/
def hamming (a b : ℕ) : ℕ :=
  popCountAux (Nat.xor a b) (Nat.xor a b)

/-- `hamming` viewed as a rational-valued distance function. -/
def hammingQ (a b : ℕ) : ℚ := (hamming a b : ℚ)

/-- `Node.insert` (lines 60-72): route by `dist_fn(self.point, point) <
self.threshold`, create a bare leaf in an absent slot, otherwise recurse. -/
def Node.insert (dist : α → α → ℚ) : Node α → α → Node α
  | Node.none, _ => Node.none
  | Node.node q t i o, p =>
      if dist q p < t then
        match i with
        | Node.none => Node.node q t (leaf p) o
        | Node.node q2 t2 a b => Node.node q t (Node.insert dist (Node.node q2 t2 a b) p) o
      else
        match o with
        | Node.none => Node.node q t i (leaf p)
        | Node.node q2 t2 a b => Node.node q t i (Node.insert dist (Node.node q2 t2 a b) p)

/-- `VPTree.insert` (lines 187-198): an empty tree gets the new point as root
vantage point (a bare leaf), otherwise delegate to `Node.insert`. -/
def insert (dist : α → α → ℚ) (root : Node α) (p : α) : Node α :=
  match root with
  | Node.none => leaf p
  | Node.node q t a b => Node.insert dist (Node.node q t a b) p

/-- Threshold repair at the end of `remove_from_node` (lines 224-231): note
the conditions use Python truthiness, so a childless (`__len__ == 0`) child
counts as absent. -/
def repair : Node α → Node α
  | Node.none => Node.none
  | Node.node q _ i o =>
      if truthy i && truthy o then Node.node q (max (thrOf i) (thrOf o)) i o
      else if truthy i then Node.node q (thrOf i) i o
      else if truthy o then Node.node q (thrOf o) i o
      else Node.node q 0 i o

/-- `remove_from_node` (lines 208-233), for integer points (the descent
compares the raw point against the rational threshold, so the point type must
be numeric).  On a match with a truthy `inside`, the code calls
`node.inside.get_nearest_neighbor(...)`, a method that does not exist on
`Node`, so Python raises `AttributeError`.  On a match with a falsy `inside`
the node is returned as `None` (dropping its whole `outside` subtree).  The
returned boolean is discarded by every caller and is omitted. -/
def removeFromNode : Node ℕ → ℕ → Except String (Node ℕ)
  | Node.none, _ => Except.ok Node.none
  | Node.node q t i o, p =>
      if q = p then
        if truthy i then Except.error "AttributeError"
        else Except.ok Node.none
      else if (p : ℚ) ≤ t then
        match removeFromNode i p with
        | Except.error e => Except.error e
        | Except.ok i2 => Except.ok (repair (Node.node q t i2 o))
      else
        match removeFromNode o p with
        | Except.error e => Except.error e
        | Except.ok o2 => Except.ok (repair (Node.node q t i o2))

/-- `VPTree.remove` (lines 200-235): replaces the root by the result of
`remove_from_node`. -/
def remove (root : Node ℕ) (p : ℕ) : Except String (Node ℕ) :=
  removeFromNode root p

/-- The recursive helper `search` inside `VPTree.radius` (lines 167-180).
Note the code appends the `(node, distance)` pair — the node object itself,
not `node.point` — and uses the strict comparison `distance < tau`. -/
def radiusSearch (dist : α → α → ℚ) (q : α) (tau : ℚ) :
    Node α → List (Node α × ℚ) → List (Node α × ℚ)
  | Node.none, results => results
  | Node.node p t i o, results =>
      let d := dist q p
      let r1 := if d < tau then results ++ [(Node.node p t i o, d)] else results
      let r2 := if d < t + tau then radiusSearch dist q tau i r1 else r1
      if t - tau ≤ d then radiusSearch dist q tau o r2 else r2

/-- `VPTree.radius` (lines 154-185): run the helper from the root with
`tau = radius` and an empty accumulator. -/
def radius (dist : α → α → ℚ) (q : α) (r : ℚ) (root : Node α) :
    List (Node α × ℚ) :=
  radiusSearch dist q r root []

/-- `tau` in `VPTree.search` starts as `float("inf")`; `Option.none` stands
for infinity.  This helper is `dist < tau`. -/
def ltTau (d : ℚ) : Option ℚ → Bool
  | Option.none => true
  | Option.some t => decide (d < t)

/-- `dist < current_node.threshold + tau` (line 144), true for infinite tau. -/
def ltThrPlusTau (d t : ℚ) : Option ℚ → Bool
  | Option.none => true
  | Option.some tau => decide (d < t + tau)

/-- `dist >= current_node.threshold - tau` (line 148), true for infinite tau. -/
def geThrMinusTau (d t : ℚ) : Option ℚ → Bool
  | Option.none => true
  | Option.some tau => decide (t - tau ≤ d)

/-- `results.sort(key=lambda node: node[1])` (line 140): sort the candidate
list ascending by its distance component. -/
def sortByDist (l : List (α × ℚ)) : List (α × ℚ) :=
  l.insertionSort (fun a b => a.2 ≤ b.2)

/-- `[n]` when the child is a `Node`, `[]` when it is `None` (the `is not
None` guards on lines 145 and 149). -/
def childList : Node α → List (Node α)
  | Node.none => []
  | Node.node q t a b => [Node.node q t a b]

theorem childList_count_le (n : Node α) : ((childList n).map count).sum ≤ count n := by
  cases n <;> simp [childList, count]

/-- The `while to_search:` loop of `VPTree.search` (lines 132-152).  The queue
is popped from the front and children are pushed at the back (`pop(0)` /
`append`), outside before inside, exactly as in the source.  Popping a `None`
(which happens exactly when the tree is empty, since the loop starts from
`[self.vantage_point]` and only non-`None` children are ever appended) is the
`AttributeError` of `None.point`; an empty candidate list after the
`results.pop()` is the `IndexError` of `results[-1]`. -/
def searchLoop (dist : α → α → ℚ) (q : α) (k : ℕ) :
    List (Node α) → Option ℚ → List (α × ℚ) → Except String (List (α × ℚ))
  | [], _, results => Except.ok results
  | Node.none :: _, _, _ => Except.error "AttributeError"
  | Node.node p t i o :: rest, tau, results =>
      let d := dist q p
      let step : Except String (List (α × ℚ) × Option ℚ) :=
        if ltTau d tau then
          let r1 := results ++ [(p, d)]
          if k < r1.length then
            let r2 := (sortByDist r1).dropLast
            match r2.getLast? with
            | Option.none => Except.error "IndexError"
            | Option.some last => Except.ok (r2, Option.some (dist q last.1))
          else Except.ok (r1, tau)
        else Except.ok (results, tau)
      match step with
      | Except.error e => Except.error e
      | Except.ok (res2, tau2) =>
          searchLoop dist q k
            (rest ++ (if ltThrPlusTau d t tau2 then childList o else []) ++
              (if geThrMinusTau d t tau2 then childList i else []))
            tau2 res2
termination_by queue _ _ => (queue.map count).sum
decreasing_by
  rw [List.append_assoc]
  simp only [List.map_append, List.sum_append, List.map_cons, List.sum_cons]
  have hcount : count (Node.node p t i o) = 1 + count i + count o := rfl
  have ho := childList_count_le o
  have hi := childList_count_le i
  have hnil : (List.map count ([] : List (Node α))).sum = 0 := rfl
  split <;> split <;> omega

/-- `VPTree.search` (lines 114-152): run the loop from `[self.vantage_point]`
with infinite `tau` and no results. -/
def search (dist : α → α → ℚ) (q : α) (k : ℕ) (root : Node α) :
    Except String (List (α × ℚ)) :=
  searchLoop dist q k [root] Option.none []

/-- Is a candidate list sorted ascending by its distance component? -/
def ascByDist : List (α × ℚ) → Bool
  | [] => true
  | [_] => true
  | a :: b :: rest => decide (a.2 ≤ b.2) && ascByDist (b :: rest)

/-- `statistics.median`: sort the data; odd length takes the middle element,
even length averages the two middle elements.  (The Python function raises on
empty data; the model is only applied to nonempty lists, except where the
empty-data error itself is modelled, in `vptreeInit`.) -/
def median (l : List ℚ) : ℚ :=
  let s := l.insertionSort (fun a b => a ≤ b)
  if l.length % 2 = 1 then s.getD (l.length / 2) 0
  else (s.getD (l.length / 2 - 1) 0 + s.getD (l.length / 2) 0) / 2

/-- `secrets.choice`: an arbitrary element of a nonempty list, modelled by an
oracle `ch` giving an index, taken modulo the length. -/
def chooseElem [Inhabited α] (ch : List α → ℕ) (l : List α) : α :=
  l.getD (ch l % l.length) default

theorem chooseElem_mem [Inhabited α] (ch : List α → ℕ) (l : List α) (h : l ≠ []) :
    chooseElem ch l ∈ l := by
  have hpos : 0 < l.length := List.length_pos.mpr h
  have hlt : ch l % l.length < l.length := Nat.mod_lt _ hpos
  rw [chooseElem, List.getD_eq_getElem l default hlt]
  exact List.getElem_mem hlt

/-- `[(dist_fn(point, d), d) for d in subitems]` (line 44). -/
def distList (dist : α → α → ℚ) (p : α) (l : List α) : List (ℚ × α) :=
  l.map (fun d => (dist p d, d))

/-- The node threshold: median of the distances (line 45). -/
def medianDist (dist : α → α → ℚ) (p : α) (l : List α) : ℚ :=
  median ((distList dist p l).map Prod.fst)

/-- `inside = [d[1] for d in distances if d[0] <= self.threshold]` (line 47). -/
def insideList (dist : α → α → ℚ) (p : α) (t : ℚ) (l : List α) : List α :=
  ((distList dist p l).filter (fun x => decide (x.1 ≤ t))).map Prod.snd

/-- `outside = [d[1] for d in distances if d[0] > self.threshold]` (line 48). -/
def outsideList (dist : α → α → ℚ) (p : α) (t : ℚ) (l : List α) : List α :=
  ((distList dist p l).filter (fun x => decide (t < x.1))).map Prod.snd

theorem insideList_length_le (dist : α → α → ℚ) (p : α) (t : ℚ) (l : List α) :
    (insideList dist p t l).length ≤ l.length := by
  have h1 := List.length_filter_le (fun x => decide (x.1 ≤ t)) (distList dist p l)
  simpa [insideList, distList] using h1

theorem outsideList_length_le (dist : α → α → ℚ) (p : α) (t : ℚ) (l : List α) :
    (outsideList dist p t l).length ≤ l.length := by
  have h1 := List.length_filter_le (fun x => decide (t < x.1)) (distList dist p l)
  simpa [outsideList, distList] using h1

theorem erase_chooseElem_length_lt [Inhabited α] [DecidableEq α] (ch : List α → ℕ)
    (l : List α) (n : ℕ) (h : l ≠ []) (hle : l.length ≤ n) :
    (l.erase (chooseElem ch l)).length < n := by
  have hm : chooseElem ch l ∈ l := chooseElem_mem ch l h
  have hpos : 0 < l.length := List.length_pos.mpr h
  rw [List.length_erase_of_mem hm]
  omega

/-- `Node.__init__` (lines 37-58): either a bare node (no subitems), or the
median-threshold partition, each nonempty partition becoming a child built
from an arbitrarily chosen element and the rest of that partition (the chosen
element is removed by value, as `list.remove` does). -/
def mkNode [Inhabited α] [DecidableEq α] (ch : List α → ℕ) (dist : α → α → ℚ) :
    α → List α → Node α
  | p, [] => Node.node p 0 Node.none Node.none
  | p, x :: xs =>
      Node.node p (medianDist dist p (x :: xs))
        (if h : insideList dist p (medianDist dist p (x :: xs)) (x :: xs) = [] then Node.none
         else
           mkNode ch dist
             (chooseElem ch (insideList dist p (medianDist dist p (x :: xs)) (x :: xs)))
             ((insideList dist p (medianDist dist p (x :: xs)) (x :: xs)).erase
               (chooseElem ch (insideList dist p (medianDist dist p (x :: xs)) (x :: xs)))))
        (if h : outsideList dist p (medianDist dist p (x :: xs)) (x :: xs) = [] then Node.none
         else
           mkNode ch dist
             (chooseElem ch (outsideList dist p (medianDist dist p (x :: xs)) (x :: xs)))
             ((outsideList dist p (medianDist dist p (x :: xs)) (x :: xs)).erase
               (chooseElem ch (outsideList dist p (medianDist dist p (x :: xs)) (x :: xs)))))
termination_by _ l => l.length
decreasing_by
  · exact erase_chooseElem_length_lt ch _ _ h
      (insideList_length_le dist p (medianDist dist p (x :: xs)) (x :: xs))
  · exact erase_chooseElem_length_lt ch _ _ h
      (outsideList_length_le dist p (medianDist dist p (x :: xs)) (x :: xs))

/-- `VPTree.__init__` (lines 92-112): choose a vantage point, remove it from
the caller's list, compute `self.threshold = statistics.median(distances)` —
which raises `StatisticsError` when the remaining list is empty, i.e. exactly
when the input had one element — then build the root node from the remaining
points.  Returns the root together with the caller's list as the constructor
leaves it.  (`sys.setrecursionlimit` only touches interpreter state and is
modelled as a no-op.) -/
def vptreeInit [Inhabited α] [DecidableEq α] (ch : List α → ℕ) (dist : α → α → ℚ)
    (initial : List α) : Except String (Node α × List α) :=
  match initial with
  | [] => Except.ok (Node.none, initial)
  | x :: xs =>
      let vp := chooseElem ch (x :: xs)
      let rest := (x :: xs).erase vp
      match rest with
      | [] => Except.error "StatisticsError"
      | y :: ys => Except.ok (mkNode ch dist vp (y :: ys), y :: ys)

/-- The caller's list after `VPTree.__init__` ran (or raised): lines 98-99
remove the chosen vantage point from it in place before anything can fail. -/
def vptreeInitList [Inhabited α] [DecidableEq α] (ch : List α → ℕ)
    (initial : List α) : List α :=
  match initial with
  | [] => initial
  | x :: xs => (x :: xs).erase (chooseElem ch (x :: xs))

/-- A concrete choice oracle: always pick index 0 (`secrets.choice` may
return any element, in particular always the first). -/
def ch0 : List ℕ → ℕ := fun _ => 0

/-- The tree `VPTree([0, 3], hamming)` builds when the vantage point chosen
is `0`: the only other point `3` is at Hamming distance 2, the median of
`[2]` is 2, and `3` lands in the inside partition. -/
def treeA : Node ℕ := Node.node 0 2 (leaf 3) Node.none

/-! ### Helper lemmas -/

theorem mem_insideList {dist : α → α → ℚ} {p : α} {t : ℚ} {l : List α} {q : α}
    (hq : q ∈ insideList dist p t l) : dist p q ≤ t := by
  simp only [insideList] at hq
  rw [List.mem_map] at hq
  obtain ⟨pair, hpair, rfl⟩ := hq
  rw [List.mem_filter] at hpair
  obtain ⟨hmemD, hP⟩ := hpair
  have hfst : pair.1 = dist p pair.2 := by
    simp only [distList, List.mem_map] at hmemD
    obtain ⟨a, _, rfl⟩ := hmemD
    rfl
  have hle : pair.1 ≤ t := of_decide_eq_true hP
  rwa [hfst] at hle

theorem mem_outsideList {dist : α → α → ℚ} {p : α} {t : ℚ} {l : List α} {q : α}
    (hq : q ∈ outsideList dist p t l) : t < dist p q := by
  simp only [outsideList] at hq
  rw [List.mem_map] at hq
  obtain ⟨pair, hpair, rfl⟩ := hq
  rw [List.mem_filter] at hpair
  obtain ⟨hmemD, hP⟩ := hpair
  have hfst : pair.1 = dist p pair.2 := by
    simp only [distList, List.mem_map] at hmemD
    obtain ⟨a, _, rfl⟩ := hmemD
    rfl
  have hlt : t < pair.1 := of_decide_eq_true hP
  rwa [hfst] at hlt

/-- The inside and outside partitions together are a permutation of the
subitems: every subitem satisfies exactly one of the two filter predicates. -/
theorem insideList_append_outsideList_perm (dist : α → α → ℚ) (p : α) (t : ℚ)
    (l : List α) : (insideList dist p t l ++ outsideList dist p t l).Perm l := by
  have hpred : (fun x : ℚ × α => decide (t < x.1)) =
      (fun x : ℚ × α => !decide (x.1 ≤ t)) := by
    funext x
    simp [← decide_not, not_le]
  rw [insideList, outsideList, hpred, ← List.map_append]
  have h2 := List.filter_append_perm (fun x : ℚ × α => decide (x.1 ≤ t)) (distList dist p l)
  have h3 := h2.map Prod.snd
  have h4 : (distList dist p l).map Prod.snd = l := by
    have hid : (Prod.snd ∘ fun d => ((dist p d, d) : ℚ × α)) = id := rfl
    rw [distList, List.map_map, hid, List.map_id]
  rwa [h4] at h3

theorem mkNode_ne_none [Inhabited α] [DecidableEq α] (ch : List α → ℕ)
    (dist : α → α → ℚ) (p : α) (l : List α) : mkNode ch dist p l ≠ Node.none := by
  cases l <;> rw [mkNode] <;> simp

/-- The unfolding equation of `mkNode` on a nonempty working set. -/
theorem mkNode_cons_eq [Inhabited α] [DecidableEq α] (ch : List α → ℕ)
    (dist : α → α → ℚ) (p x : α) (xs : List α) :
    mkNode ch dist p (x :: xs) =
      Node.node p (medianDist dist p (x :: xs))
        (if insideList dist p (medianDist dist p (x :: xs)) (x :: xs) = [] then Node.none
         else
           mkNode ch dist
             (chooseElem ch (insideList dist p (medianDist dist p (x :: xs)) (x :: xs)))
             ((insideList dist p (medianDist dist p (x :: xs)) (x :: xs)).erase
               (chooseElem ch (insideList dist p (medianDist dist p (x :: xs)) (x :: xs)))))
        (if outsideList dist p (medianDist dist p (x :: xs)) (x :: xs) = [] then Node.none
         else
           mkNode ch dist
             (chooseElem ch (outsideList dist p (medianDist dist p (x :: xs)) (x :: xs)))
             ((outsideList dist p (medianDist dist p (x :: xs)) (x :: xs)).erase
               (chooseElem ch (outsideList dist p (medianDist dist p (x :: xs)) (x :: xs))))) := by
  rw [mkNode]
  rfl

/-- The points stored by a node built from `p` and `l` are exactly `p :: l`,
up to order (strong induction on the length of the working set). -/
theorem mkNode_points_aux [Inhabited α] [DecidableEq α] (ch : List α → ℕ)
    (dist : α → α → ℚ) :
    ∀ (n : ℕ) (p : α) (l : List α), l.length ≤ n →
      (points (mkNode ch dist p l)).Perm (p :: l) := by
  intro n
  induction n with
  | zero =>
      intro p l hl
      have hnil : l = [] := List.length_eq_zero.mp (Nat.le_zero.mp hl)
      subst hnil
      rw [mkNode]
      simp [points]
  | succ n ih =>
      intro p l hl
      match l with
      | [] =>
          rw [mkNode]
          simp [points]
      | x :: xs =>
          rw [mkNode_cons_eq]
          simp only [points]
          refine List.Perm.cons p ?_
          have hins : (points (if insideList dist p (medianDist dist p (x :: xs)) (x :: xs) = []
              then Node.none
              else mkNode ch dist
                (chooseElem ch (insideList dist p (medianDist dist p (x :: xs)) (x :: xs)))
                ((insideList dist p (medianDist dist p (x :: xs)) (x :: xs)).erase
                  (chooseElem ch (insideList dist p (medianDist dist p (x :: xs)) (x :: xs)))))).Perm
              (insideList dist p (medianDist dist p (x :: xs)) (x :: xs)) := by
            split
            case isTrue h => rw [h]; simp [points]
            case isFalse h =>
              have hmem := chooseElem_mem ch _ h
              have hlen : ((insideList dist p (medianDist dist p (x :: xs)) (x :: xs)).erase
                  (chooseElem ch (insideList dist p (medianDist dist p (x :: xs)) (x :: xs)))).length ≤ n := by
                rw [List.length_erase_of_mem hmem]
                have h1 := insideList_length_le dist p (medianDist dist p (x :: xs)) (x :: xs)
                have h2 : (insideList dist p (medianDist dist p (x :: xs)) (x :: xs)).length ≠ 0 :=
                  fun hz => h (List.length_eq_zero.mp hz)
                simp only [List.length_cons] at h1 hl
                omega
              exact (ih _ _ hlen).trans (List.perm_cons_erase hmem).symm
          have houts : (points (if outsideList dist p (medianDist dist p (x :: xs)) (x :: xs) = []
              then Node.none
              else mkNode ch dist
                (chooseElem ch (outsideList dist p (medianDist dist p (x :: xs)) (x :: xs)))
                ((outsideList dist p (medianDist dist p (x :: xs)) (x :: xs)).erase
                  (chooseElem ch (outsideList dist p (medianDist dist p (x :: xs)) (x :: xs)))))).Perm
              (outsideList dist p (medianDist dist p (x :: xs)) (x :: xs)) := by
            split
            case isTrue h => rw [h]; simp [points]
            case isFalse h =>
              have hmem := chooseElem_mem ch _ h
              have hlen : ((outsideList dist p (medianDist dist p (x :: xs)) (x :: xs)).erase
                  (chooseElem ch (outsideList dist p (medianDist dist p (x :: xs)) (x :: xs)))).length ≤ n := by
                rw [List.length_erase_of_mem hmem]
                have h1 := outsideList_length_le dist p (medianDist dist p (x :: xs)) (x :: xs)
                have h2 : (outsideList dist p (medianDist dist p (x :: xs)) (x :: xs)).length ≠ 0 :=
                  fun hz => h (List.length_eq_zero.mp hz)
                simp only [List.length_cons] at h1 hl
                omega
              exact (ih _ _ hlen).trans (List.perm_cons_erase hmem).symm
          exact ((hins.append houts).trans
            (insideList_append_outsideList_perm dist p (medianDist dist p (x :: xs)) (x :: xs)))

theorem mkNode_points [Inhabited α] [DecidableEq α] (ch : List α → ℕ)
    (dist : α → α → ℚ) (p : α) (l : List α) :
    (points (mkNode ch dist p l)).Perm (p :: l) :=
  mkNode_points_aux ch dist l.length p l le_rfl

/-- `VPTree.__len__` agrees with the true point count: `Node.__len__` counts
every descendant of its receiver, and the tree adds one for the root. -/
theorem pyTreeLen_eq_count (nd : Node α) : pyTreeLen nd = count nd := by
  induction nd with
  | none => rfl
  | node q t i o ihi iho =>
      cases i with
      | none =>
          cases o with
          | none => rfl
          | node q2 t2 a b =>
              simp only [pyTreeLen, pyLen, count] at iho ⊢
              omega
      | node q1 t1 a1 b1 =>
          cases o with
          | none =>
              simp only [pyTreeLen, pyLen, count] at ihi ⊢
              omega
          | node q2 t2 a b =>
              simp only [pyTreeLen, pyLen, count] at ihi iho ⊢
              omega

theorem count_nodeInsert (dist : α → α → ℚ) (p : α) :
    ∀ nd : Node α, nd ≠ Node.none →
      count (Node.insert dist nd p) = count nd + 1 := by
  intro nd
  induction nd with
  | none => intro h; exact absurd rfl h
  | node q t i o ihi iho =>
      intro _
      rw [Node.insert.eq_def]
      simp only []
      split
      · cases i with
        | none => simp only [count, leaf] <;> omega
        | node q2 t2 a b =>
            have := ihi (by simp)
            simp only [count] at this ⊢
            omega
      · cases o with
        | none => simp only [count, leaf] <;> omega
        | node q2 t2 a b =>
            have := iho (by simp)
            simp only [count] at this ⊢
            omega

theorem thresholds_nodeInsert (dist : α → α → ℚ) (p : α) :
    ∀ nd : Node α, nd ≠ Node.none →
      (thresholds (Node.insert dist nd p)).Perm (0 :: thresholds nd) := by
  intro nd
  induction nd with
  | none => intro h; exact absurd rfl h
  | node q t i o ihi iho =>
      intro _
      rw [Node.insert.eq_def]
      simp only []
      split
      · cases i with
        | none =>
            simp only [thresholds, leaf, List.append_nil, List.nil_append]
            exact List.Perm.swap 0 t (thresholds o)
        | node q2 t2 a b =>
            have hperm := ihi (by simp)
            simp only [thresholds] at hperm ⊢
            have h1 := (List.Perm.cons t (hperm.append_right (thresholds o)))
            exact h1.trans (List.Perm.swap 0 t _)
      · cases o with
        | none =>
            simp only [thresholds, leaf, List.append_nil]
            have h1 : (thresholds i ++ (0 :: ([] ++ []))).Perm (0 :: thresholds i) := by
              simpa using @List.perm_append_comm ℚ (thresholds i) [0]
            exact (List.Perm.cons t h1).trans (List.Perm.swap 0 t _)
        | node q2 t2 a b =>
            have hperm := iho (by simp)
            simp only [thresholds] at hperm ⊢
            have h1 := List.Perm.cons t (List.Perm.append_left (thresholds i) hperm)
            have h2 := List.Perm.cons t
              (@List.perm_middle ℚ 0 (thresholds i) (thresholds (Node.node q2 t2 a b)))
            exact (h1.trans h2).trans (List.Perm.swap 0 t _)

theorem distList_map_fst (dist : α → α → ℚ) (p : α) (l : List α) :
    (distList dist p l).map Prod.fst = l.map (dist p) := by
  rw [distList, List.map_map]
  rfl

/-! ### Claim theorems -/

/-- C1: the claim states that `VPTree.search` always returns its `(point,
distance)` pairs sorted ascending by distance (and, for every tree and k, the
k nearest points).  It is false: the code only sorts when more than `k`
candidates have been admitted, so on the two-point tree obtained by inserting
`0` and then `1` into an empty tree, `search(1, 2)` returns `[(0, 1), (1, 0)]`
— the farther point first, not ascending by distance. -/
theorem search_unsorted_output :
    insert hammingQ (insert hammingQ Node.none 0) 1 = Node.node 0 0 Node.none (leaf 1) ∧
    search hammingQ 1 2 (Node.node 0 0 Node.none (leaf 1)) = Except.ok [(0, 1), (1, 0)] ∧
    ascByDist [((0 : ℕ), (1 : ℚ)), (1, 0)] = false := by
  refine ⟨rfl, ?_, by norm_num [ascByDist]⟩
  simp [search, searchLoop, leaf, ltTau, ltThrPlusTau, geThrMinusTau, childList,
    sortByDist, hammingQ, hamming, popCountAux]

/-- C2: the claim states that `VPTree.radius` returns exactly the stored
points at distance ≤ r, in particular a point at distance exactly r.  It is
false: the code admits a point only when `distance < tau` (strict), so on the
one-point tree holding `1`, a radius-1 query from `0` — whose sole point is at
Hamming distance exactly 1 — returns the empty list. -/
theorem radius_boundary_excluded :
    insert hammingQ Node.none 1 = leaf 1 ∧
    hammingQ 0 1 = 1 ∧
    radius hammingQ 0 1 (leaf 1) = [] := by
  refine ⟨rfl, by norm_num [hammingQ, hamming, popCountAux], ?_⟩
  simp [radius, radiusSearch, leaf, hammingQ, hamming, popCountAux]

/-- C3: the claim states that removing a present point removes exactly one
occurrence, decreasing `len` by one.  It is false: on the tree with root `0`
and outside child `1`, `remove(0)` matches the root, whose `inside` is falsy,
and the code returns `None` for the whole subtree, dropping the outside child
as well — `len` goes from 2 to 0.  When the matched node has a truthy
`inside`, the code instead calls the nonexistent method
`get_nearest_neighbor` and raises `AttributeError`. -/
theorem remove_drops_outside_subtree :
    count (Node.node (0 : ℕ) 0 Node.none (leaf 1)) = 2 ∧
    remove (Node.node 0 0 Node.none (leaf 1)) 0 = Except.ok Node.none ∧
    count (Node.none : Node ℕ) = 0 ∧
    remove (Node.node 0 1 (Node.node 1 0 (leaf 2) Node.none) Node.none) 0 =
      Except.error "AttributeError" := by
  exact ⟨rfl, rfl, rfl, rfl⟩

/-- C4: the claim states that removing an absent point leaves the tree
entirely unchanged.  It is false: even when nothing matches, the code
recomputes every visited node's threshold from its children's thresholds
(with Python truthiness, a childless child counting as absent).  On the tree
`VPTree([0, 3])` (vantage point 0, threshold 2, inside leaf 3), removing the
absent point `5` rewrites the root threshold from 2 to 0. -/
theorem remove_absent_rewrites_threshold :
    vptreeInit ch0 hammingQ [0, 3] = Except.ok (treeA, [3]) ∧
    (points treeA).contains 5 = false ∧
    remove treeA 5 = Except.ok (Node.node 0 0 (leaf 3) Node.none) ∧
    thrOf treeA = 2 ∧
    thrOf (Node.node (0 : ℕ) 0 (leaf 3) Node.none) = 0 := by
  refine ⟨?_, rfl, rfl, rfl, rfl⟩
  simp [vptreeInit, chooseElem, mkNode, medianDist, distList, insideList, outsideList,
    median, hammingQ, hamming, popCountAux, leaf, ch0, treeA]

/-- C5: the claim states that `VPTree.search` returns the empty sequence,
without error, on an empty tree and for k = 0.  It is false on both counts:
on an empty tree the loop pops `None` and dereferences `None.point`
(`AttributeError`), and with k = 0 on a nonempty tree the first admitted
candidate is immediately popped and `results[-1]` indexes an empty list
(`IndexError`). -/
theorem search_empty_k0_errors :
    search hammingQ (0 : ℕ) 5 Node.none = Except.error "AttributeError" ∧
    search hammingQ 0 0 (leaf 1) = Except.error "IndexError" := by
  constructor
  · simp [search, searchLoop]
  · simp [search, searchLoop, leaf, ltTau, sortByDist, hammingQ, hamming, popCountAux]

/-- C6: the claim states that removal's descent routes by comparing
`distanceFn(point_to_remove, node.point)` against the threshold.  It is
false: line 219 compares the raw point itself (`point_to_remove <=
node.threshold`).  On `VPTree([0, 3])` (root 0, threshold 2, point 3 in the
inside child) the distance rule would descend inside (`hamming(3,0) = 2 ≤ 2`)
and remove 3, but the raw rule sends `remove(3)` outside (`3 ≤ 2` fails), so
the point count is unchanged and 3 is still stored afterwards. -/
theorem remove_routes_on_raw_point :
    remove treeA 3 = Except.ok (Node.node 0 0 (leaf 3) Node.none) ∧
    (3 : ℕ) ∈ points (Node.node (0 : ℕ) 0 (leaf 3) Node.none) ∧
    count (Node.node (0 : ℕ) 0 (leaf 3) Node.none) = count treeA ∧
    hammingQ 3 0 ≤ thrOf treeA ∧
    decide ((3 : ℚ) ≤ thrOf treeA) = false := by
  refine ⟨rfl, ?_, rfl, ?_, ?_⟩
  · simp [points, leaf]
  · norm_num [hammingQ, hamming, popCountAux, treeA, thrOf]
  · norm_num [treeA, thrOf]

/-- C7: the claim states that constructing a `VPTree` succeeds for every
input list.  It is false: with a one-element input the constructor removes
the chosen vantage point, leaving an empty list of distances, and
`statistics.median([])` raises `StatisticsError` before the root node is ever
built. -/
theorem vptree_build_singleton_raises (x : ℕ) :
    vptreeInit ch0 hammingQ [x] = Except.error "StatisticsError" := by
  simp [vptreeInit, chooseElem, ch0]

/-- C8: at construction time a node built from a non-empty working set has as
threshold the median of the distances from its vantage point to the
subitems; every point stored in the inside child is at distance ≤ threshold
and every point stored in the outside child at distance > threshold; a child
is absent exactly when its partition is empty; and a node built with no
subitems has threshold 0 and no children. -/
theorem mkNode_partition_invariant [Inhabited α] [DecidableEq α]
    (ch : List α → ℕ) (dist : α → α → ℚ) (p x : α) (xs : List α) :
    thrOf (mkNode ch dist p (x :: xs)) = median ((x :: xs).map (dist p)) ∧
    ((points (insideOf (mkNode ch dist p (x :: xs)))).all
      (fun q2 => decide (dist p q2 ≤ thrOf (mkNode ch dist p (x :: xs)))) = true) ∧
    ((points (outsideOf (mkNode ch dist p (x :: xs)))).all
      (fun q2 => decide (thrOf (mkNode ch dist p (x :: xs)) < dist p q2)) = true) ∧
    ((insideOf (mkNode ch dist p (x :: xs)) = Node.none) =
      (insideList dist p (medianDist dist p (x :: xs)) (x :: xs) = [])) ∧
    ((outsideOf (mkNode ch dist p (x :: xs)) = Node.none) =
      (outsideList dist p (medianDist dist p (x :: xs)) (x :: xs) = [])) ∧
    mkNode ch dist p [] = Node.node p 0 Node.none Node.none := by
  rw [mkNode_cons_eq]
  refine ⟨?_, ?_, ?_, ?_, ?_, by rw [mkNode]⟩
  · rw [thrOf, medianDist, distList_map_fst]
  · rw [insideOf, thrOf]
    split
    · rfl
    case isFalse hi =>
      rw [List.all_eq_true]
      intro q2 hq2
      have hmem : q2 ∈ insideList dist p (medianDist dist p (x :: xs)) (x :: xs) := by
        have hperm := mkNode_points ch dist
          (chooseElem ch (insideList dist p (medianDist dist p (x :: xs)) (x :: xs)))
          ((insideList dist p (medianDist dist p (x :: xs)) (x :: xs)).erase
            (chooseElem ch (insideList dist p (medianDist dist p (x :: xs)) (x :: xs))))
        have h2 := hperm.mem_iff.mp hq2
        rcases List.mem_cons.mp h2 with h3 | h3
        · rw [h3]; exact chooseElem_mem ch _ hi
        · exact List.mem_of_mem_erase h3
      exact decide_eq_true (mem_insideList hmem)
  · rw [outsideOf, thrOf]
    split
    · rfl
    case isFalse ho =>
      rw [List.all_eq_true]
      intro q2 hq2
      have hmem : q2 ∈ outsideList dist p (medianDist dist p (x :: xs)) (x :: xs) := by
        have hperm := mkNode_points ch dist
          (chooseElem ch (outsideList dist p (medianDist dist p (x :: xs)) (x :: xs)))
          ((outsideList dist p (medianDist dist p (x :: xs)) (x :: xs)).erase
            (chooseElem ch (outsideList dist p (medianDist dist p (x :: xs)) (x :: xs))))
        have h2 := hperm.mem_iff.mp hq2
        rcases List.mem_cons.mp h2 with h3 | h3
        · rw [h3]; exact chooseElem_mem ch _ ho
        · exact List.mem_of_mem_erase h3
      exact decide_eq_true (mem_outsideList hmem)
  · rw [insideOf]
    split
    case isTrue hi => simp [hi]
    case isFalse hi => simp [hi, mkNode_ne_none]
  · rw [outsideOf]
    split
    case isTrue ho => simp [ho]
    case isFalse ho => simp [ho, mkNode_ne_none]

/-- C9: `VPTree.insert` always succeeds and adds exactly one point: `len`
grows by one, an empty tree gets the new point as root vantage point with
threshold 0 and no children, the new point is appended as a leaf with
threshold 0 (one threshold 0 is added, all others are preserved up to
order), and routing compares the node's distance to the point against the
node's threshold — strictly less descends inside, otherwise outside. -/
theorem insert_increments_len (dist : α → α → ℚ) (root : Node α) (p : α) :
    count (insert dist root p) = count root + 1 ∧
    pyTreeLen (insert dist root p) = pyTreeLen root + 1 ∧
    insert dist Node.none p = Node.node p 0 Node.none Node.none ∧
    (thresholds (insert dist root p)).Perm (0 :: thresholds root) ∧
    ∀ (q : α) (t : ℚ) (i o : Node α),
      Node.insert dist (Node.node q t i o) p =
        if dist q p < t then
          Node.node q t
            (match i with
             | Node.none => leaf p
             | Node.node q2 t2 a b => Node.insert dist (Node.node q2 t2 a b) p) o
        else
          Node.node q t i
            (match o with
             | Node.none => leaf p
             | Node.node q2 t2 a b => Node.insert dist (Node.node q2 t2 a b) p) := by
  have hcount : count (insert dist root p) = count root + 1 := by
    cases root with
    | none => rfl
    | node q t i o => exact count_nodeInsert dist p (Node.node q t i o) (by simp)
  refine ⟨hcount, ?_, rfl, ?_, ?_⟩
  · rw [pyTreeLen_eq_count, pyTreeLen_eq_count, hcount]
  · cases root with
    | none => rfl
    | node q t i o => exact thresholds_nodeInsert dist p (Node.node q t i o) (by simp)
  · intro q t i o
    rw [Node.insert.eq_def]
    dsimp only
    split
    · cases i <;> rfl
    · cases o <;> rfl

/-- C10 counterexample: the claim states that after construction the caller's
list no longer contains the element chosen as root vantage point.  With the
duplicate input `[0, 0]` (choice oracle picking index 0), `list.remove` takes
out only the first occurrence, so the list afterwards is `[0]` and still
contains the chosen vantage point `0`. -/
theorem vptreeInit_keeps_duplicate :
    chooseElem ch0 [0, 0] = 0 ∧
    vptreeInitList ch0 [0, 0] = [0] ∧
    (0 : ℕ) ∈ vptreeInitList ch0 [0, 0] := by
  exact ⟨rfl, rfl, by simp [vptreeInitList, chooseElem, ch0]⟩

/-- C10 (amended): for every nonempty initial list the constructor mutates
the caller's list in place, removing exactly one occurrence of the chosen
vantage point — the length drops by exactly one and the multiplicity of the
chosen element drops by exactly one — but an equal element may remain when
the input held duplicates. -/
theorem vptreeInitList_removes_one [Inhabited α] [DecidableEq α]
    (ch : List α → ℕ) (x : α) (xs : List α) :
    vptreeInitList ch (x :: xs) = (x :: xs).erase (chooseElem ch (x :: xs)) ∧
    (vptreeInitList ch (x :: xs)).length + 1 = (x :: xs).length ∧
    (vptreeInitList ch (x :: xs)).count (chooseElem ch (x :: xs)) + 1 =
      (x :: xs).count (chooseElem ch (x :: xs)) := by
  have hmem : chooseElem ch (x :: xs) ∈ x :: xs := chooseElem_mem ch _ (by simp)
  refine ⟨rfl, ?_, ?_⟩
  · show ((x :: xs).erase (chooseElem ch (x :: xs))).length + 1 = (x :: xs).length
    rw [List.length_erase_of_mem hmem]
    have : 0 < (x :: xs).length := by simp
    omega
  · show ((x :: xs).erase (chooseElem ch (x :: xs))).count (chooseElem ch (x :: xs)) + 1 =
      (x :: xs).count (chooseElem ch (x :: xs))
    rw [List.count_erase_self]
    have : 0 < (x :: xs).count (chooseElem ch (x :: xs)) := List.count_pos_iff.mpr hmem
    omega

end VPT
